import Mathlib

/-!
Verification of the day-16 transmission decoder (hex string → bit list →
packet tree → version sum / evaluation). The definitions below are a
shallow embedding of `src/day/sixteen.rs`:

* the bit cursor is a `List Bool` consumed from the front; `splitFirst`
  and `splitAt` mirror the `split_first` / `split_at` helpers, including
  their exact error message strings;
* `loadBe` mirrors `load_be` on an Msb0 bit slice (first bit most
  significant); all widths read in this file (3, 4, 11, 15) fit every
  integer type the source instantiates, so no truncation is modelled;
* the recursive-descent parser (`Package::parse`, `parse_value`,
  `parse_sub_packages`) is embedded with an explicit fuel argument to make
  the mutual recursion structural; fuel is a proof device only — it is
  monotone (proved below) and `Package.parse` supplies enough for every
  input that the Rust parser accepts;
* `u64` arithmetic wraps modulo `2 ^ 64`; a Rust slice index out of
  bounds (a panic) is modelled by `Option.none`. The version-sum
  accumulator alone is modelled as an unbounded `Nat`: it adds 3-bit
  values, so wrapping its `u64` would take about `2 ^ 61` packets, more
  than any bit sequence a machine could hold.
-/

namespace Day16

/-- Big-endian load of a bit slice as an unsigned integer, first bit most
significant: models `BitSlice::<u8, Msb0>::load_be`. -/
def loadBe (bits : List Bool) : Nat :=
  bits.foldl (fun acc b => 2 * acc + (if b then 1 else 0)) 0

/-- Models `split_first`: pops one bit off the front of the cursor, failing
with the given context message when the cursor is empty. -/
def splitFirst (bits : List Bool) (errorMessage : String) :
    Except String (Bool × List Bool) :=
  match bits with
  | [] => .error errorMessage
  | b :: rest => .ok (b, rest)

/-- Models `split_at`: carves off the first `mid` bits, failing with a
message that carries the available length and the requested width when
fewer than `mid` bits remain. -/
def splitAt (bits : List Bool) (mid : Nat) (errorMessage : String) :
    Except String (List Bool × List Bool) :=
  if mid ≤ bits.length then .ok (bits.take mid, bits.drop mid)
  else .error (errorMessage ++ ": len: " ++ toString bits.length ++
    ", mid: " ++ toString mid)

/-- Models `split_at_as::<I>`: `split_at` followed by a big-endian load. -/
def splitAtAs (bits : List Bool) (mid : Nat) (errorMessage : String) :
    Except String (Nat × List Bool) :=
  match splitAt bits mid errorMessage with
  | .error e => .error e
  | .ok (left, rest) => .ok (loadBe left, rest)

/-- The seven operator opcodes of the `Operation` enum. -/
inductive Operation where
  | Sum
  | Product
  | Minimum
  | Maximum
  | GreaterThan
  | LessThan
  | EqualTo
deriving DecidableEq, Repr

/-- Models `impl TryFrom<u8> for Operation` (the value 4 falls through to
the error arm, exactly as in the source match). -/
def Operation.tryFrom (value : Nat) : Except String Operation :=
  match value with
  | 0 => .ok .Sum
  | 1 => .ok .Product
  | 2 => .ok .Minimum
  | 3 => .ok .Maximum
  | 5 => .ok .GreaterThan
  | 6 => .ok .LessThan
  | 7 => .ok .EqualTo
  | _ => .error ("invalid operation value: " ++ toString value)

/-- The `Package` enum: a literal carrying a value, or an operator carrying
an opcode and an ordered list of sub-packages. -/
inductive Package where
  | Literal (version : Nat) (value : Nat)
  | Operator (version : Nat) (operation : Operation) (packages : List Package)
deriving Repr

/-- Models the `while more_packets` loop of `Package::parse_value`: one
continuation bit then four data bits per group, accumulated into a `u64`
(`value <<= 4; value += packet_value`, wrapping modulo `2 ^ 64`). The
extra `Nat` is recursion fuel, a proof device only: it is monotone
(proved below) and the wrapper `parseValue` supplies enough for any
cursor, since each iteration consumes five bits. -/
def parseValueP : Nat → List Bool → Nat → Except String (Nat × List Bool)
  | 0, _, _ => .error "recursion fuel exhausted"
  | fuel + 1, bits, value =>
    match splitFirst bits "insufficient bits for literal packet identifier" with
    | .error e => .error e
    | .ok (morePackets, bits₁) =>
      match splitAtAs bits₁ 4 "insufficient bits for literal packet content" with
      | .error e => .error e
      | .ok (packetValue, bits₂) =>
        let value₂ := ((value * 16) % 2 ^ 64 + packetValue) % 2 ^ 64
        if morePackets then parseValueP fuel bits₂ value₂
        else .ok (value₂, bits₂)

/-- Models `Package::parse_value` (initial accumulator 0). -/
def parseValue (bits : List Bool) : Except String (Nat × List Bool) :=
  parseValueP (bits.length + 1) bits 0

mutual

/-- Models `Package::parse` (the extra `Nat` is recursion fuel: every
mutual call passes one unit less, making the recursion structural). -/
def parseP : Nat → List Bool → Except String (Package × List Bool)
  | 0, _ => .error "recursion fuel exhausted"
  | fuel + 1, bits =>
    match splitAtAs bits 3 "insufficient bits for version header" with
    | .error e => .error e
    | .ok (version, bits₁) =>
      match splitAtAs bits₁ 3 "insufficient bits for version header" with
      | .error e => .error e
      | .ok (typeId, bits₂) =>
        if typeId = 4 then
          match parseValue bits₂ with
          | .error e => .error e
          | .ok (value, bits₃) => .ok (.Literal version value, bits₃)
        else
          match Operation.tryFrom typeId with
          | .error e => .error e
          | .ok operation =>
            match parseSubPackagesP fuel bits₂ with
            | .error e => .error e
            | .ok (packages, bits₃) =>
              .ok (.Operator version operation packages, bits₃)

/-- Models `Package::parse_sub_packages`: a length-type bit selects the
count framing (11-bit sub-packet count) or the bit-length framing (15-bit
total length, a carved-off sub-cursor parsed until empty). -/
def parseSubPackagesP : Nat → List Bool → Except String (List Package × List Bool)
  | 0, _ => .error "recursion fuel exhausted"
  | fuel + 1, bits =>
    match splitFirst bits "insufficient bits for packet length identifier" with
    | .error e => .error e
    | .ok (lengthTypeId, bits₁) =>
      if lengthTypeId then
        match splitAtAs bits₁ 11 "insufficient bits for packet count" with
        | .error e => .error e
        | .ok (packetCount, bits₂) => parseCountP fuel packetCount bits₂
      else
        match splitAtAs bits₁ 15 "insufficient bits for packets bit count" with
        | .error e => .error e
        | .ok (packetBitCount, bits₂) =>
          match splitAt bits₂ packetBitCount "insufficent bits for packet" with
          | .error e => .error e
          | .ok (packetBits, bits₃) =>
            match parseUntilEmptyP fuel packetBits with
            | .error e => .error e
            | .ok packages => .ok (packages, bits₃)

/-- Models the `while packet_count > 0` loop of `parse_sub_packages`. -/
def parseCountP : Nat → Nat → List Bool → Except String (List Package × List Bool)
  | 0, _, _ => .error "recursion fuel exhausted"
  | _ + 1, 0, bits => .ok ([], bits)
  | fuel + 1, count + 1, bits =>
    match parseP fuel bits with
    | .error e => .error e
    | .ok (package, bits₁) =>
      match parseCountP fuel count bits₁ with
      | .error e => .error e
      | .ok (packages, bits₂) => .ok (package :: packages, bits₂)

/-- Models the `while !packet_bits.is_empty()` loop of
`parse_sub_packages` over the carved-off sub-cursor. -/
def parseUntilEmptyP : Nat → List Bool → Except String (List Package)
  | _, [] => .ok []
  | 0, _ :: _ => .error "recursion fuel exhausted"
  | fuel + 1, b :: bits =>
    match parseP fuel (b :: bits) with
    | .error e => .error e
    | .ok (package, rest) =>
      match parseUntilEmptyP fuel rest with
      | .error e => .error e
      | .ok packages => .ok (package :: packages)

end

/-- The entry point `Package::parse` on a whole cursor: `bits.length + 1`
units of fuel are more than the parser can burn on `bits` (each unit spent
descends into a construct that consumes further bits). -/
def Package.parse (bits : List Bool) : Except String (Package × List Bool) :=
  parseP (bits.length + 1) bits

/-- Models `values.iter().min()` on a `u64` slice. -/
def listMin : List Nat → Option Nat
  | [] => none
  | v :: rest => some (rest.foldl Nat.min v)

/-- Models `values.iter().max()` on a `u64` slice. -/
def listMax : List Nat → Option Nat
  | [] => none
  | v :: rest => some (rest.foldl Nat.max v)

/-- Models `Operation::execute` over the child values. `u64` sums and
products wrap modulo `2 ^ 64`; the comparison opcodes index `values[0]`
and `values[1]`, and the out-of-bounds panic is modelled as `none`. -/
def Operation.execute : Operation → List Nat → Option Nat
  | .Sum, values => some (values.foldl (fun acc v => (acc + v) % 2 ^ 64) 0)
  | .Product, values => some (values.foldl (fun acc v => (acc * v) % 2 ^ 64) 1)
  | .Minimum, values =>
    match listMin values with
    | some m => some m
    | none => some 0
  | .Maximum, values =>
    match listMax values with
    | some m => some m
    | none => some 0
  | .GreaterThan, values =>
    match values with
    | v₀ :: v₁ :: _ => some (if v₀ > v₁ then 1 else 0)
    | _ => none
  | .LessThan, values =>
    match values with
    | v₀ :: v₁ :: _ => some (if v₀ < v₁ then 1 else 0)
    | _ => none
  | .EqualTo, values =>
    match values with
    | v₀ :: v₁ :: _ => some (if v₀ = v₁ then 1 else 0)
    | _ => none

mutual

/-- Models `Package::decode`: a literal yields its value, an operator maps
`decode` over its sub-packages and hands the values to the operation. -/
def Package.decode : Package → Option Nat
  | .Literal _ value => some value
  | .Operator _ operation packages =>
    match Package.decodeList packages with
    | some values => operation.execute values
    | none => none

/-- The `packages.iter().map(decode).collect()` step of `Package::decode`. -/
def Package.decodeList : List Package → Option (List Nat)
  | [] => some []
  | p :: ps =>
    match Package.decode p, Package.decodeList ps with
    | some v, some vs => some (v :: vs)
    | _, _ => none

end

mutual

/-- Number of packets in a packet tree (a termination measure). -/
def Package.size : Package → Nat
  | .Literal _ _ => 1
  | .Operator _ _ packages => 1 + Package.sizeList packages

/-- Total number of packets in a list of packet trees. -/
def Package.sizeList : List Package → Nat
  | [] => 0
  | p :: ps => Package.size p + Package.sizeList ps

end

/-- Models the `while let Some(package) = pending_packages.pop_front()`
loop of `Transmission::version_sum`: a queue of pending packages and the
running sum; an operator pushes its sub-packages on the back. -/
def versionSumAux : List Package → Nat → Nat
  | [], acc => acc
  | .Literal version _ :: queue, acc => versionSumAux queue (acc + version)
  | .Operator version _ packages :: queue, acc =>
    versionSumAux (queue ++ packages) (acc + version)
termination_by queue _ => Package.sizeList queue
decreasing_by
  · simp only [Package.sizeList, Package.size]
    omega
  · have happ : ∀ (a b : List Package),
        Package.sizeList (a ++ b) = Package.sizeList a + Package.sizeList b := by
      intro a b
      induction a with
      | nil => simp [Package.sizeList]
      | cons p ps ih => simp [Package.sizeList, ih]; omega
    simp only [happ, Package.sizeList, Package.size]
    omega

/-- Models the hex table of `bitvec_from_str`: digit and uppercase ranges
map to their values, anything else is the invalid-character error. -/
def hexCharValue (c : Char) : Except String Nat :=
  if '0' ≤ c ∧ c ≤ '9' then .ok (c.toNat - 48)
  else if 'A' ≤ c ∧ c ≤ 'F' then .ok (c.toNat - 55)
  else .error ("input has an invalid character '" ++ String.singleton c ++ "'")

/-- The low nibble of a hex value as four bits, most significant first:
models `hex_char_value.view_bits::<Msb0>()[4..]`. -/
def toBits4 (v : Nat) : List Bool :=
  [v.testBit 3, v.testBit 2, v.testBit 1, v.testBit 0]

/-- Models `bitvec_from_str`: each character contributes four bits in
order; the first invalid character aborts the conversion. -/
def bitvecFromStr : List Char → Except String (List Bool)
  | [] => .ok []
  | c :: rest =>
    match hexCharValue c with
    | .error e => .error e
    | .ok v =>
      match bitvecFromStr rest with
      | .error e => .error e
      | .ok bits => .ok (toBits4 v ++ bits)

/-- The code points with the Unicode White_Space property, which is what
`char::is_whitespace` tests. -/
def rustWhitespace : List Nat :=
  [9, 10, 11, 12, 13, 32, 133, 160, 5760, 8192, 8193, 8194, 8195, 8196,
   8197, 8198, 8199, 8200, 8201, 8202, 8232, 8233, 8239, 8287, 12288]

/-- Models `char::is_whitespace`. -/
def isRustWhitespace (c : Char) : Bool :=
  rustWhitespace.contains c.toNat

/-- Models `str::trim`: drops whitespace from both ends. -/
def rustTrim (cs : List Char) : List Char :=
  ((cs.dropWhile isRustWhitespace).reverse.dropWhile isRustWhitespace).reverse

/-- The decoded transmission: the one top-level package. -/
structure Transmission where
  package : Package
deriving Repr

/-- Models `Transmission::parse`: trim, convert hex to bits, parse one
package off the front and discard whatever bits remain. -/
def Transmission.parse (input : String) : Except String Transmission :=
  match bitvecFromStr (rustTrim input.toList) with
  | .error e => .error e
  | .ok bitvector =>
    match Package.parse bitvector with
    | .error e => .error e
    | .ok (package, _) => .ok { package := package }

/-- Models `Transmission::version_sum` (queue seeded with the package). -/
def Transmission.versionSum (t : Transmission) : Nat :=
  versionSumAux [t.package] 0

/-- Models `Transmission::decode`. -/
def Transmission.decode (t : Transmission) : Option Nat :=
  t.package.decode

/-! ## Specification-side definitions used to state the claims -/

mutual

/-- The version sum as the specification words it: a literal contributes
its version, an operator its version plus the version sums of all its
sub-packages, recursively. -/
def versionSumSpec : Package → Nat
  | .Literal version _ => version
  | .Operator version _ packages => version + versionSumSpecList packages

/-- Sum of `versionSumSpec` over a list of packages. -/
def versionSumSpecList : List Package → Nat
  | [] => 0
  | p :: ps => versionSumSpec p + versionSumSpecList ps

end

mutual

/-- Every comparison operator (GreaterThan, LessThan, EqualTo) in the
tree has at least two sub-packages: the precondition under which
`Operation::execute` never indexes out of bounds. -/
def comparisonsBinary : Package → Bool
  | .Literal _ _ => true
  | .Operator _ operation packages =>
    (if operation = .GreaterThan ∨ operation = .LessThan ∨
        operation = .EqualTo
      then decide (2 ≤ packages.length) else true) &&
    comparisonsBinaryList packages

/-- `comparisonsBinary` holding of every package in a list. -/
def comparisonsBinaryList : List Package → Bool
  | [] => true
  | p :: ps => comparisonsBinary p && comparisonsBinaryList ps

end

/-- A character the hex table of `bitvec_from_str` accepts: a decimal
digit or an uppercase letter A through F. -/
def isHexChar (c : Char) : Bool :=
  (decide ('0' ≤ c) && decide (c ≤ '9')) ||
  (decide ('A' ≤ c) && decide (c ≤ 'F'))

/-- The base-16 concatenation of a list of 4-bit groups, most significant
group first, as the specification words it: `value = value * 16 + group`
folded over the groups in read order, with no width limit. -/
def specLiteralValue (groups : List Nat) : Nat :=
  groups.foldl (fun value group => value * 16 + group) 0

/-- The wire encoding of a literal body with the given groups: every
group is one continuation bit (1 on all but the last group, 0 on the
last) followed by the four bits of the group, most significant first. -/
def encodeGroups : List Nat → List Bool
  | [] => []
  | [group] => false :: toBits4 group
  | group :: rest => true :: (toBits4 group ++ encodeGroups rest)

/-- The bits consumed by each successive packet that `parseP` carves off
a cursor parsed until empty (the bit-length sub-packet framing): entry
`i` is the cursor shrinkage caused by parsing child `i`. -/
def consumedCounts : Nat → List Bool → Option (List Nat)
  | _, [] => some []
  | 0, _ :: _ => none
  | fuel + 1, b :: bits =>
    match parseP fuel (b :: bits) with
    | .error _ => none
    | .ok (_, rest) =>
      match consumedCounts fuel rest with
      | some counts => some (((b :: bits).length - rest.length) :: counts)
      | none => none

/-! ## Inversion lemmas for the parsing functions -/

/-- Inversion for a successful `splitFirst`. -/
theorem splitFirst_ok {bits : List Bool} {msg : String} {b : Bool}
    {rest : List Bool} (h : splitFirst bits msg = .ok (b, rest)) :
    bits = b :: rest := by
  cases bits with
  | nil => exact absurd h (by simp [splitFirst])
  | cons x xs =>
    simp only [splitFirst, Except.ok.injEq, Prod.mk.injEq] at h
    simp [h.1, h.2]

/-- Inversion for a successful `splitAt`. -/
theorem splitAt_ok {bits : List Bool} {mid : Nat} {msg : String}
    {left rest : List Bool} (h : splitAt bits mid msg = .ok (left, rest)) :
    mid ≤ bits.length ∧ left = bits.take mid ∧ rest = bits.drop mid := by
  unfold splitAt at h
  split at h
  · simp only [Except.ok.injEq, Prod.mk.injEq] at h
    exact ⟨by assumption, h.1.symm, h.2.symm⟩
  · cases h

/-- Inversion for a successful `splitAtAs`. -/
theorem splitAtAs_ok {bits : List Bool} {mid : Nat} {msg : String}
    {v : Nat} {rest : List Bool} (h : splitAtAs bits mid msg = .ok (v, rest)) :
    mid ≤ bits.length ∧ v = loadBe (bits.take mid) ∧ rest = bits.drop mid := by
  unfold splitAtAs at h
  cases hs : splitAt bits mid msg with
  | error e => rw [hs] at h; cases h
  | ok p =>
    obtain ⟨l, r⟩ := p
    rw [hs] at h
    simp only [Except.ok.injEq, Prod.mk.injEq] at h
    obtain ⟨hl, hr, hm⟩ := splitAt_ok hs
    exact ⟨hl, by rw [← h.1, hr], by rw [← h.2, hm]⟩

/-- Inversion of one successful step of `parseP`. -/
theorem parseP_succ_ok {fuel : Nat} {bits : List Bool} {p : Package}
    {rest : List Bool} :
    parseP (fuel + 1) bits = .ok (p, rest) ↔
    ∃ version bits₁ typeId bits₂,
      splitAtAs bits 3 "insufficient bits for version header" =
        .ok (version, bits₁) ∧
      splitAtAs bits₁ 3 "insufficient bits for version header" =
        .ok (typeId, bits₂) ∧
      ((typeId = 4 ∧ ∃ value, parseValue bits₂ = .ok (value, rest) ∧
          p = .Literal version value) ∨
       (typeId ≠ 4 ∧ ∃ operation packages,
          Operation.tryFrom typeId = .ok operation ∧
          parseSubPackagesP fuel bits₂ = .ok (packages, rest) ∧
          p = .Operator version operation packages)) := by
  constructor
  · intro h
    simp only [parseP] at h
    split at h
    · cases h
    · rename_i version bits₁ hv
      split at h
      · cases h
      · rename_i typeId bits₂ ht
        refine ⟨version, bits₁, typeId, bits₂, hv, ht, ?_⟩
        split at h
        · rename_i h4
          left
          refine ⟨h4, ?_⟩
          split at h
          · cases h
          · rename_i value bits₃ hval
            obtain ⟨hp, hr⟩ := Prod.mk.injEq .. ▸ Except.ok.inj h
            exact ⟨value, hr ▸ hval, hp.symm⟩
        · rename_i h4
          right
          refine ⟨h4, ?_⟩
          split at h
          · cases h
          · rename_i operation hop
            split at h
            · cases h
            · rename_i packages bits₃ hsub
              obtain ⟨hp, hr⟩ := Prod.mk.injEq .. ▸ Except.ok.inj h
              exact ⟨operation, packages, hop, hr ▸ hsub, hp.symm⟩
  · rintro ⟨version, bits₁, typeId, bits₂, hv, ht,
      ⟨h4, value, hval, rfl⟩ | ⟨h4, operation, packages, hop, hsub, rfl⟩⟩
    · subst h4
      simp only [parseP, hv, ht, if_pos rfl, hval, parseValue] at *
      simp [hval]
    · simp only [parseP, hv, ht, if_neg h4, hop, hsub]

/-- Inversion of one successful step of `parseSubPackagesP`. -/
theorem parseSubPackagesP_succ_ok {fuel : Nat} {bits : List Bool}
    {ps : List Package} {rest : List Bool} :
    parseSubPackagesP (fuel + 1) bits = .ok (ps, rest) ↔
    ∃ lengthTypeId bits₁,
      splitFirst bits "insufficient bits for packet length identifier" =
        .ok (lengthTypeId, bits₁) ∧
      ((lengthTypeId = true ∧ ∃ packetCount bits₂,
          splitAtAs bits₁ 11 "insufficient bits for packet count" =
            .ok (packetCount, bits₂) ∧
          parseCountP fuel packetCount bits₂ = .ok (ps, rest)) ∨
       (lengthTypeId = false ∧ ∃ packetBitCount bits₂ packetBits,
          splitAtAs bits₁ 15 "insufficient bits for packets bit count" =
            .ok (packetBitCount, bits₂) ∧
          splitAt bits₂ packetBitCount "insufficent bits for packet" =
            .ok (packetBits, rest) ∧
          parseUntilEmptyP fuel packetBits = .ok ps)) := by
  constructor
  · intro h
    simp only [parseSubPackagesP] at h
    split at h
    · cases h
    · rename_i lengthTypeId bits₁ hl
      refine ⟨lengthTypeId, bits₁, hl, ?_⟩
      split at h
      · rename_i hb
        left
        split at h
        · cases h
        · rename_i packetCount bits₂ hc
          exact ⟨hb, packetCount, bits₂, hc, h⟩
      · rename_i hb
        right
        refine ⟨Bool.eq_false_iff.2 hb, ?_⟩
        split at h
        · cases h
        · rename_i packetBitCount bits₂ hc
          split at h
          · cases h
          · rename_i packetBits bits₃ hp
            split at h
            · cases h
            · rename_i packages hu
              obtain ⟨hps, hr⟩ := Prod.mk.injEq .. ▸ Except.ok.inj h
              exact ⟨packetBitCount, bits₂, packetBits, hc, hr ▸ hp,
                hps ▸ hu⟩
  · rintro ⟨lengthTypeId, bits₁, hl,
      ⟨rfl, packetCount, bits₂, hc, hcount⟩ |
      ⟨rfl, packetBitCount, bits₂, packetBits, hc, hp, hu⟩⟩
    · simp [parseSubPackagesP, hl, hc, hcount]
    · simp [parseSubPackagesP, hl, hc, hp, hu]

/-- Inversion of one successful step of `parseCountP` with a nonzero
count. -/
theorem parseCountP_succ_ok {fuel count : Nat} {bits : List Bool}
    {ps : List Package} {rest : List Bool} :
    parseCountP (fuel + 1) (count + 1) bits = .ok (ps, rest) ↔
    ∃ package bits₁ packages,
      parseP fuel bits = .ok (package, bits₁) ∧
      parseCountP fuel count bits₁ = .ok (packages, rest) ∧
      ps = package :: packages := by
  constructor
  · intro h
    simp only [parseCountP] at h
    split at h
    · cases h
    · rename_i package bits₁ hp
      split at h
      · cases h
      · rename_i packages bits₂ hc
        obtain ⟨hps, hr⟩ := Prod.mk.injEq .. ▸ Except.ok.inj h
        exact ⟨package, bits₁, packages, hp, hr ▸ hc, hps.symm⟩
  · rintro ⟨package, bits₁, packages, hp, hc, rfl⟩
    simp only [parseCountP, hp, hc]

/-- Inversion of one successful step of `parseUntilEmptyP` on a nonempty
cursor. -/
theorem parseUntilEmptyP_succ_ok {fuel : Nat} {b : Bool} {bits : List Bool}
    {ps : List Package} :
    parseUntilEmptyP (fuel + 1) (b :: bits) = .ok ps ↔
    ∃ package rest packages,
      parseP fuel (b :: bits) = .ok (package, rest) ∧
      parseUntilEmptyP fuel rest = .ok packages ∧
      ps = package :: packages := by
  constructor
  · intro h
    simp only [parseUntilEmptyP] at h
    split at h
    · cases h
    · rename_i package rest hp
      split at h
      · cases h
      · rename_i packages hu
        exact ⟨package, rest, packages, hp, hu, (Except.ok.inj h).symm⟩
  · rintro ⟨package, rest, packages, hp, hu, rfl⟩
    simp only [parseUntilEmptyP, hp, hu]

/-! ## Cursor arithmetic: consumption bounds and extension by unread bits -/

/-- A successful `splitFirst` consumes one bit. -/
theorem splitFirst_length {bits : List Bool} {msg : String} {b : Bool}
    {rest : List Bool} (h : splitFirst bits msg = .ok (b, rest)) :
    rest.length < bits.length := by
  rw [splitFirst_ok h]
  simp

/-- A successful `splitAtAs` consumes `mid` bits. -/
theorem splitAtAs_length {bits : List Bool} {mid : Nat} {msg : String}
    {v : Nat} {rest : List Bool} (h : splitAtAs bits mid msg = .ok (v, rest)) :
    rest.length = bits.length - mid := by
  rw [(splitAtAs_ok h).2.2]
  simp

/-- Bits past the cursor position do not change a successful
`splitFirst`. -/
theorem splitFirst_append {bits : List Bool} {msg : String} {b : Bool}
    {rest : List Bool} (extra : List Bool)
    (h : splitFirst bits msg = .ok (b, rest)) :
    splitFirst (bits ++ extra) msg = .ok (b, rest ++ extra) := by
  rw [splitFirst_ok h]
  rfl

/-- Bits past the cursor position do not change a successful `splitAt`:
the carved-off prefix is identical and the extra bits sit after the
remainder. -/
theorem splitAt_append {bits : List Bool} {mid : Nat} {msg : String}
    {left rest : List Bool} (extra : List Bool)
    (h : splitAt bits mid msg = .ok (left, rest)) :
    splitAt (bits ++ extra) mid msg = .ok (left, rest ++ extra) := by
  obtain ⟨hle, hl, hr⟩ := splitAt_ok h
  unfold splitAt
  rw [if_pos (by simp; omega), List.take_append_of_le_length hle,
    List.drop_append_of_le_length hle, ← hl, ← hr]

/-- Bits past the cursor position do not change a successful
`splitAtAs`. -/
theorem splitAtAs_append {bits : List Bool} {mid : Nat} {msg : String}
    {v : Nat} {rest : List Bool} (extra : List Bool)
    (h : splitAtAs bits mid msg = .ok (v, rest)) :
    splitAtAs (bits ++ extra) mid msg = .ok (v, rest ++ extra) := by
  obtain ⟨hle, hv, hr⟩ := splitAtAs_ok h
  have hs : splitAt bits mid msg = .ok (bits.take mid, bits.drop mid) := by
    unfold splitAt; rw [if_pos hle]
  have hs' := splitAt_append extra hs
  unfold splitAtAs
  rw [hs']
  simp [hv, hr]

/-- Inversion of one successful step of the literal-value loop. -/
theorem parseValueP_succ_ok {fuel : Nat} {bits : List Bool} {value v : Nat}
    {rest : List Bool} :
    parseValueP (fuel + 1) bits value = .ok (v, rest) ↔
    ∃ morePackets bits₁ packetValue bits₂,
      splitFirst bits "insufficient bits for literal packet identifier" =
        .ok (morePackets, bits₁) ∧
      splitAtAs bits₁ 4 "insufficient bits for literal packet content" =
        .ok (packetValue, bits₂) ∧
      ((morePackets = true ∧
          parseValueP fuel bits₂ (((value * 16) % 2 ^ 64 + packetValue) % 2 ^ 64) =
            .ok (v, rest)) ∨
       (morePackets = false ∧
          v = ((value * 16) % 2 ^ 64 + packetValue) % 2 ^ 64 ∧ rest = bits₂)) := by
  constructor
  · intro h
    simp only [parseValueP] at h
    split at h
    · cases h
    · rename_i morePackets bits₁ h₁
      split at h
      · cases h
      · rename_i packetValue bits₂ h₂
        refine ⟨morePackets, bits₁, packetValue, bits₂, h₁, h₂, ?_⟩
        split at h
        · exact Or.inl ⟨by assumption, h⟩
        · obtain ⟨hv, hr⟩ := Prod.mk.injEq .. ▸ Except.ok.inj h
          exact Or.inr ⟨Bool.eq_false_iff.2 (by assumption), hv.symm, hr.symm⟩
  · rintro ⟨morePackets, bits₁, packetValue, bits₂, h₁, h₂,
      ⟨rfl, hrec⟩ | ⟨rfl, rfl, rfl⟩⟩
    · simp only [parseValueP, h₁, h₂]
      simpa using hrec
    · simp [parseValueP, h₁, h₂]

/-- Fuel monotonicity of the literal-value loop. -/
theorem parseValueP_mono {fuel fuel' : Nat} (hle : fuel ≤ fuel') :
    ∀ {bits : List Bool} {value v : Nat} {rest : List Bool},
    parseValueP fuel bits value = .ok (v, rest) →
    parseValueP fuel' bits value = .ok (v, rest) := by
  induction fuel generalizing fuel' with
  | zero => intro bits value v rest h; simp [parseValueP] at h
  | succ f ih =>
    intro bits value v rest h
    obtain ⟨f', rfl⟩ : ∃ g, fuel' = g + 1 := ⟨fuel' - 1, by omega⟩
    obtain ⟨morePackets, bits₁, packetValue, bits₂, h₁, h₂, hcase⟩ :=
      parseValueP_succ_ok.1 h
    refine parseValueP_succ_ok.2 ⟨morePackets, bits₁, packetValue, bits₂, h₁, h₂, ?_⟩
    rcases hcase with ⟨rfl, hrec⟩ | hstop
    · exact Or.inl ⟨rfl, ih (by omega) hrec⟩
    · exact Or.inr hstop

/-- A successful literal-value loop never lengthens the cursor. -/
theorem parseValueP_length {fuel : Nat} :
    ∀ {bits : List Bool} {value v : Nat} {rest : List Bool},
    parseValueP fuel bits value = .ok (v, rest) →
    rest.length ≤ bits.length := by
  induction fuel with
  | zero => intro bits value v rest h; simp [parseValueP] at h
  | succ f ih =>
    intro bits value v rest h
    obtain ⟨morePackets, bits₁, packetValue, bits₂, h₁, h₂, hcase⟩ :=
      parseValueP_succ_ok.1 h
    have h₁l := splitFirst_length h₁
    have h₂l := splitAtAs_length h₂
    rcases hcase with ⟨rfl, hrec⟩ | ⟨_, _, rfl⟩
    · have := ih hrec
      omega
    · omega

/-- Bits past the cursor position do not change a successful
literal-value loop. -/
theorem parseValueP_append {fuel : Nat} :
    ∀ {bits : List Bool} {value v : Nat} {rest : List Bool}
    (extra : List Bool),
    parseValueP fuel bits value = .ok (v, rest) →
    parseValueP fuel (bits ++ extra) value = .ok (v, rest ++ extra) := by
  induction fuel with
  | zero => intro bits value v rest extra h; simp [parseValueP] at h
  | succ f ih =>
    intro bits value v rest extra h
    obtain ⟨morePackets, bits₁, packetValue, bits₂, h₁, h₂, hcase⟩ :=
      parseValueP_succ_ok.1 h
    refine parseValueP_succ_ok.2 ⟨morePackets, bits₁ ++ extra, packetValue,
      bits₂ ++ extra, splitFirst_append extra h₁, splitAtAs_append extra h₂, ?_⟩
    rcases hcase with ⟨rfl, hrec⟩ | ⟨hm, hv, rfl⟩
    · exact Or.inl ⟨rfl, ih extra hrec⟩
    · exact Or.inr ⟨hm, hv, rfl⟩

/-- A successful `parseValue` never lengthens the cursor. -/
theorem parseValue_length {bits : List Bool} {v : Nat} {rest : List Bool}
    (h : parseValue bits = .ok (v, rest)) : rest.length ≤ bits.length :=
  parseValueP_length h

/-- Bits past the cursor position do not change a successful
`parseValue`. -/
theorem parseValue_append {bits : List Bool} {v : Nat} {rest : List Bool}
    (extra : List Bool) (h : parseValue bits = .ok (v, rest)) :
    parseValue (bits ++ extra) = .ok (v, rest ++ extra) := by
  unfold parseValue at h ⊢
  exact parseValueP_mono (by simp) (parseValueP_append extra h)

/-- Fuel monotonicity for the four mutual parsing functions: a successful
parse is preserved verbatim by any larger fuel bound. -/
theorem parse_mono :
    ∀ fuel fuel', fuel ≤ fuel' →
    (∀ {bits : List Bool} {p : Package} {rest : List Bool},
      parseP fuel bits = .ok (p, rest) → parseP fuel' bits = .ok (p, rest)) ∧
    (∀ {bits : List Bool} {ps : List Package} {rest : List Bool},
      parseSubPackagesP fuel bits = .ok (ps, rest) →
      parseSubPackagesP fuel' bits = .ok (ps, rest)) ∧
    (∀ {count : Nat} {bits : List Bool} {ps : List Package} {rest : List Bool},
      parseCountP fuel count bits = .ok (ps, rest) →
      parseCountP fuel' count bits = .ok (ps, rest)) ∧
    (∀ {bits : List Bool} {ps : List Package},
      parseUntilEmptyP fuel bits = .ok ps →
      parseUntilEmptyP fuel' bits = .ok ps) := by
  intro fuel
  induction fuel with
  | zero =>
    intro fuel' _
    refine ⟨?_, ?_, ?_, ?_⟩
    · intro bits p rest h; simp [parseP] at h
    · intro bits ps rest h; simp [parseSubPackagesP] at h
    · intro count bits ps rest h; simp [parseCountP] at h
    · intro bits ps h
      cases bits with
      | nil =>
        simp only [parseUntilEmptyP] at h
        obtain rfl := Except.ok.inj h
        cases fuel' <;> simp [parseUntilEmptyP]
      | cons b bits => simp [parseUntilEmptyP] at h
  | succ f ih =>
    intro fuel' hle
    obtain ⟨f', rfl⟩ : ∃ g, fuel' = g + 1 := ⟨fuel' - 1, by omega⟩
    obtain ⟨ihP, ihS, ihC, ihU⟩ := ih f' (by omega)
    refine ⟨?_, ?_, ?_, ?_⟩
    · intro bits p rest h
      obtain ⟨version, bits₁, typeId, bits₂, hv, ht, hcase⟩ :=
        parseP_succ_ok.1 h
      refine parseP_succ_ok.2 ⟨version, bits₁, typeId, bits₂, hv, ht, ?_⟩
      rcases hcase with ⟨h4, value, hval, rfl⟩ |
        ⟨h4, operation, packages, hop, hsub, rfl⟩
      · exact Or.inl ⟨h4, value, hval, rfl⟩
      · exact Or.inr ⟨h4, operation, packages, hop, ihS hsub, rfl⟩
    · intro bits ps rest h
      obtain ⟨lengthTypeId, bits₁, hl, hcase⟩ := parseSubPackagesP_succ_ok.1 h
      refine parseSubPackagesP_succ_ok.2 ⟨lengthTypeId, bits₁, hl, ?_⟩
      rcases hcase with ⟨hb, packetCount, bits₂, hc, hcount⟩ |
        ⟨hb, packetBitCount, bits₂, packetBits, hc, hp, hu⟩
      · exact Or.inl ⟨hb, packetCount, bits₂, hc, ihC hcount⟩
      · exact Or.inr ⟨hb, packetBitCount, bits₂, packetBits, hc, hp, ihU hu⟩
    · intro count bits ps rest h
      cases count with
      | zero =>
        simp only [parseCountP] at h
        obtain ⟨hps, hr⟩ := Prod.mk.injEq .. ▸ Except.ok.inj h
        obtain rfl := hps
        obtain rfl := hr
        simp [parseCountP]
      | succ n =>
        obtain ⟨package, bits₁, packages, hp, hc, rfl⟩ :=
          parseCountP_succ_ok.1 h
        exact parseCountP_succ_ok.2
          ⟨package, bits₁, packages, ihP hp, ihC hc, rfl⟩
    · intro bits ps h
      cases bits with
      | nil =>
        simp only [parseUntilEmptyP] at h
        obtain rfl := Except.ok.inj h
        simp [parseUntilEmptyP]
      | cons b bits =>
        obtain ⟨package, rest, packages, hp, hu, rfl⟩ :=
          parseUntilEmptyP_succ_ok.1 h
        exact parseUntilEmptyP_succ_ok.2
          ⟨package, rest, packages, ihP hp, ihU hu, rfl⟩

/-- A successful parse never lengthens the cursor: whatever a packet, a
sub-package run or a counted run leaves behind is no longer than what it
started from. -/
theorem parse_length :
    ∀ fuel,
    (∀ {bits : List Bool} {p : Package} {rest : List Bool},
      parseP fuel bits = .ok (p, rest) → rest.length ≤ bits.length) ∧
    (∀ {bits : List Bool} {ps : List Package} {rest : List Bool},
      parseSubPackagesP fuel bits = .ok (ps, rest) →
      rest.length ≤ bits.length) ∧
    (∀ {count : Nat} {bits : List Bool} {ps : List Package} {rest : List Bool},
      parseCountP fuel count bits = .ok (ps, rest) →
      rest.length ≤ bits.length) := by
  intro fuel
  induction fuel with
  | zero =>
    refine ⟨?_, ?_, ?_⟩
    · intro bits p rest h; simp [parseP] at h
    · intro bits ps rest h; simp [parseSubPackagesP] at h
    · intro count bits ps rest h; simp [parseCountP] at h
  | succ f ih =>
    obtain ⟨ihP, ihS, ihC⟩ := ih
    refine ⟨?_, ?_, ?_⟩
    · intro bits p rest h
      obtain ⟨version, bits₁, typeId, bits₂, hv, ht, hcase⟩ :=
        parseP_succ_ok.1 h
      have hv₁ := splitAtAs_length hv
      have ht₁ := splitAtAs_length ht
      rcases hcase with ⟨_, value, hval, _⟩ | ⟨_, operation, packages, _, hsub, _⟩
      · have := parseValue_length hval
        omega
      · have := ihS hsub
        omega
    · intro bits ps rest h
      obtain ⟨lengthTypeId, bits₁, hl, hcase⟩ := parseSubPackagesP_succ_ok.1 h
      have hl₁ := splitFirst_length hl
      rcases hcase with ⟨_, packetCount, bits₂, hc, hcount⟩ |
        ⟨_, packetBitCount, bits₂, packetBits, hc, hp, _⟩
      · have hc₁ := splitAtAs_length hc
        have := ihC hcount
        omega
      · have hc₁ := splitAtAs_length hc
        obtain ⟨hple, _, hpr⟩ := splitAt_ok hp
        have : rest.length = bits₂.length - packetBitCount := by
          rw [hpr]; simp
        omega
    · intro count bits ps rest h
      cases count with
      | zero =>
        simp only [parseCountP] at h
        obtain ⟨_, hr⟩ := Prod.mk.injEq .. ▸ Except.ok.inj h
        rw [← hr]
      | succ n =>
        obtain ⟨package, bits₁, packages, hp, hc, rfl⟩ :=
          parseCountP_succ_ok.1 h
        have := ihP hp
        have := ihC hc
        omega

/-- Bits past the cursor position do not change a successful parse: the
same packet is produced and the extra bits are left behind untouched.
The until-empty loop needs no such statement — it runs on a carved-off
sub-cursor that an extension of the outer cursor leaves identical. -/
theorem parse_append :
    ∀ fuel,
    (∀ {bits : List Bool} {p : Package} {rest : List Bool} (extra : List Bool),
      parseP fuel bits = .ok (p, rest) →
      parseP fuel (bits ++ extra) = .ok (p, rest ++ extra)) ∧
    (∀ {bits : List Bool} {ps : List Package} {rest : List Bool}
      (extra : List Bool),
      parseSubPackagesP fuel bits = .ok (ps, rest) →
      parseSubPackagesP fuel (bits ++ extra) = .ok (ps, rest ++ extra)) ∧
    (∀ {count : Nat} {bits : List Bool} {ps : List Package} {rest : List Bool}
      (extra : List Bool),
      parseCountP fuel count bits = .ok (ps, rest) →
      parseCountP fuel count (bits ++ extra) = .ok (ps, rest ++ extra)) := by
  intro fuel
  induction fuel with
  | zero =>
    refine ⟨?_, ?_, ?_⟩
    · intro bits p rest extra h; simp [parseP] at h
    · intro bits ps rest extra h; simp [parseSubPackagesP] at h
    · intro count bits ps rest extra h; simp [parseCountP] at h
  | succ f ih =>
    obtain ⟨ihP, ihS, ihC⟩ := ih
    refine ⟨?_, ?_, ?_⟩
    · intro bits p rest extra h
      obtain ⟨version, bits₁, typeId, bits₂, hv, ht, hcase⟩ :=
        parseP_succ_ok.1 h
      refine parseP_succ_ok.2 ⟨version, bits₁ ++ extra, typeId, bits₂ ++ extra,
        splitAtAs_append extra hv, splitAtAs_append extra ht, ?_⟩
      rcases hcase with ⟨h4, value, hval, rfl⟩ |
        ⟨h4, operation, packages, hop, hsub, rfl⟩
      · exact Or.inl ⟨h4, value, parseValue_append extra hval, rfl⟩
      · exact Or.inr ⟨h4, operation, packages, hop, ihS extra hsub, rfl⟩
    · intro bits ps rest extra h
      obtain ⟨lengthTypeId, bits₁, hl, hcase⟩ := parseSubPackagesP_succ_ok.1 h
      refine parseSubPackagesP_succ_ok.2
        ⟨lengthTypeId, bits₁ ++ extra, splitFirst_append extra hl, ?_⟩
      rcases hcase with ⟨hb, packetCount, bits₂, hc, hcount⟩ |
        ⟨hb, packetBitCount, bits₂, packetBits, hc, hp, hu⟩
      · exact Or.inl ⟨hb, packetCount, bits₂ ++ extra,
          splitAtAs_append extra hc, ihC extra hcount⟩
      · exact Or.inr ⟨hb, packetBitCount, bits₂ ++ extra, packetBits,
          splitAtAs_append extra hc, splitAt_append extra hp, hu⟩
    · intro count bits ps rest extra h
      cases count with
      | zero =>
        simp only [parseCountP] at h
        obtain ⟨hps, hr⟩ := Prod.mk.injEq .. ▸ Except.ok.inj h
        obtain rfl := hps
        obtain rfl := hr
        simp [parseCountP]
      | succ n =>
        obtain ⟨package, bits₁, packages, hp, hc, rfl⟩ :=
          parseCountP_succ_ok.1 h
        exact parseCountP_succ_ok.2 ⟨package, bits₁ ++ extra, packages,
          ihP extra hp, ihC extra hc, rfl⟩

/-! ## Version sum: the queue traversal equals the recursive sum -/

/-- `Package.sizeList` is additive over list append. -/
theorem Package.sizeList_append (a b : List Package) :
    Package.sizeList (a ++ b) = Package.sizeList a + Package.sizeList b := by
  induction a with
  | nil => simp [Package.sizeList]
  | cons p ps ih => simp [Package.sizeList, ih]; omega

/-- Every package counts at least itself. -/
theorem Package.size_pos (p : Package) : 1 ≤ p.size := by
  cases p <;> simp [Package.size]

/-- `versionSumSpecList` is additive over list append. -/
theorem versionSumSpecList_append (a b : List Package) :
    versionSumSpecList (a ++ b) = versionSumSpecList a + versionSumSpecList b := by
  induction a with
  | nil => simp [versionSumSpecList]
  | cons p ps ih => simp [versionSumSpecList, ih]; omega

/-- The queue loop of `version_sum` computes the accumulator plus the
recursive version sum of everything still in the queue. -/
theorem versionSumAux_eq :
    ∀ (n : Nat) (queue : List Package) (acc : Nat),
    Package.sizeList queue ≤ n →
    versionSumAux queue acc = acc + versionSumSpecList queue := by
  intro n
  induction n with
  | zero =>
    intro queue acc h
    cases queue with
    | nil => simp [versionSumAux, versionSumSpecList]
    | cons p ps =>
      exfalso
      have := Package.size_pos p
      simp [Package.sizeList] at h
      omega
  | succ n ih =>
    intro queue acc h
    cases queue with
    | nil => simp [versionSumAux, versionSumSpecList]
    | cons p ps =>
      cases p with
      | Literal version value =>
        simp only [versionSumAux, versionSumSpecList, versionSumSpec]
        rw [ih ps (acc + version)
          (by simp [Package.sizeList, Package.size] at h ⊢; omega)]
        omega
      | Operator version operation packages =>
        simp only [versionSumAux, versionSumSpecList, versionSumSpec]
        rw [ih (ps ++ packages) (acc + version)
          (by simp [Package.sizeList_append, Package.sizeList,
            Package.size] at h ⊢; omega)]
        rw [versionSumSpecList_append]
        omega

/-- Claim C3: `version_sum` returns the version of a literal, and for an
operator its own version plus the version sums of all its sub-packages,
recursively — the iterative queue traversal of `Transmission::version_sum`
computes exactly the recursive sum `versionSumSpec`. -/
theorem version_sum_eq_recursive_spec (t : Transmission) :
    t.versionSum = versionSumSpec t.package := by
  unfold Transmission.versionSum
  rw [versionSumAux_eq (Package.sizeList [t.package]) [t.package] 0 le_rfl]
  simp [versionSumSpecList]

/-! ## Evaluation of the comparison operators -/

/-- Claim C4: an operator with opcode GreaterThan, LessThan or EqualTo
and exactly two sub-packages evaluates to 1 when the comparison between
the first and second child values holds, and to 0 otherwise. -/
theorem comparison_operators_evaluate (version v₁ v₂ : Nat)
    (c₁ c₂ : Package) (h₁ : c₁.decode = some v₁) (h₂ : c₂.decode = some v₂) :
    (Package.Operator version .GreaterThan [c₁, c₂]).decode =
      some (if v₁ > v₂ then 1 else 0) ∧
    (Package.Operator version .LessThan [c₁, c₂]).decode =
      some (if v₁ < v₂ then 1 else 0) ∧
    (Package.Operator version .EqualTo [c₁, c₂]).decode =
      some (if v₁ = v₂ then 1 else 0) := by
  refine ⟨?_, ?_, ?_⟩ <;>
    simp [Package.decode, Package.decodeList, h₁, h₂, Operation.execute]

/-- Witness for C4 at two concrete literals with values 5 and 3. -/
theorem comparison_operators_evaluate_witness :
    (Package.Operator 1 .GreaterThan [.Literal 0 5, .Literal 0 3]).decode =
      some (if 5 > 3 then 1 else 0) ∧
    (Package.Operator 1 .LessThan [.Literal 0 5, .Literal 0 3]).decode =
      some (if 5 < 3 then 1 else 0) ∧
    (Package.Operator 1 .EqualTo [.Literal 0 5, .Literal 0 3]).decode =
      some (if 5 = 3 then 1 else 0) :=
  comparison_operators_evaluate 1 5 3 (.Literal 0 5) (.Literal 0 3) rfl rfl

/-! ## Minimum and Maximum on an empty child list -/

/-- Claim C10: evaluating a Minimum or Maximum operator with no
sub-packages returns 0 rather than failing — the empty-iterator case of
`Operation::execute` is explicitly defaulted to 0. -/
theorem minimum_maximum_empty_children_zero (version : Nat) :
    (Package.Operator version .Minimum []).decode = some 0 ∧
    (Package.Operator version .Maximum []).decode = some 0 :=
  ⟨rfl, rfl⟩

/-! ## Trailing bits are never read -/

/-- Claim C8: bits appended after a successfully decoded top-level packet
are never read or validated — the decode of the extended bit sequence
yields the very same packet tree (hence the same version sum and the same
evaluation result), with the extra bits left behind untouched. -/
theorem trailing_bits_ignored {bits extra : List Bool} {p : Package}
    {rest : List Bool} (h : Package.parse bits = .ok (p, rest)) :
    Package.parse (bits ++ extra) = .ok (p, rest ++ extra) := by
  unfold Package.parse at h ⊢
  have h₁ := (parse_append (bits.length + 1)).1 extra h
  exact (parse_mono (bits.length + 1) ((bits ++ extra).length + 1)
    (by simp)).1 h₁

/-- Witness for C8: the literal packet of hex `D2FE28` decodes the same
after two junk bits are appended to the bit sequence. -/
theorem trailing_bits_ignored_witness :
    Package.parse
      ([true, true, false, true, false, false, true, false, true, true,
        true, true, true, true, true, false, false, false, true, false,
        true, false, false, false] ++ [true, true]) =
      .ok (.Literal 6 2021, [false, false, false] ++ [true, true]) :=
  trailing_bits_ignored (by rfl)

/-! ## Totality of evaluation when comparisons are at least binary -/

/-- A successful `decodeList` yields one value per package. -/
theorem Package.decodeList_length :
    ∀ {ps : List Package} {vs : List Nat},
    Package.decodeList ps = some vs → vs.length = ps.length := by
  intro ps
  induction ps with
  | nil =>
    intro vs h
    simp only [Package.decodeList] at h
    obtain rfl := Option.some.inj h
    rfl
  | cons p rest ih =>
    intro vs h
    simp only [Package.decodeList] at h
    split at h
    · rename_i v vs' hv hvs
      obtain rfl := Option.some.inj h
      simp [ih hvs]
    · cases h

/-- Totality of `decodeList` on lists of packets whose comparison
operators are at least binary, by strong induction on the total number of
packets. -/
theorem decodeList_total_aux :
    ∀ (n : Nat) (ps : List Package), Package.sizeList ps ≤ n →
    comparisonsBinaryList ps = true →
    (Package.decodeList ps).isSome = true := by
  intro n
  induction n with
  | zero =>
    intro ps hsize _
    cases ps with
    | nil => rfl
    | cons p rest =>
      exact absurd hsize
        (by have := Package.size_pos p; simp [Package.sizeList]; omega)
  | succ n ih =>
    intro ps hsize hok
    cases ps with
    | nil => rfl
    | cons p rest =>
      simp only [comparisonsBinaryList, Bool.and_eq_true] at hok
      obtain ⟨hp, hrest⟩ := hok
      simp only [Package.sizeList] at hsize
      have hpsome : (p.decode).isSome = true := by
        cases p with
        | Literal version value => rfl
        | Operator version operation packages =>
          simp only [comparisonsBinary, Bool.and_eq_true] at hp
          obtain ⟨harity, hlist⟩ := hp
          have hsize' : Package.sizeList packages ≤ n := by
            simp [Package.size] at hsize; omega
          have hvals := ih packages hsize' hlist
          obtain ⟨values, hvalues⟩ := Option.isSome_iff_exists.1 hvals
          simp only [Package.decode, hvalues]
          have hlen := Package.decodeList_length hvalues
          cases operation with
          | Sum => rfl
          | Product => rfl
          | Minimum => simp only [Operation.execute]; split <;> rfl
          | Maximum => simp only [Operation.execute]; split <;> rfl
          | GreaterThan =>
            have h2 : 2 ≤ values.length := by simp at harity; omega
            match values, h2 with
            | v₀ :: v₁ :: _, _ => rfl
          | LessThan =>
            have h2 : 2 ≤ values.length := by simp at harity; omega
            match values, h2 with
            | v₀ :: v₁ :: _, _ => rfl
          | EqualTo =>
            have h2 : 2 ≤ values.length := by simp at harity; omega
            match values, h2 with
            | v₀ :: v₁ :: _, _ => rfl
      have hrsome := ih rest (by have := Package.size_pos p; omega) hrest
      obtain ⟨v, hv⟩ := Option.isSome_iff_exists.1 hpsome
      obtain ⟨vs, hvs⟩ := Option.isSome_iff_exists.1 hrsome
      simp [Package.decodeList, hv, hvs]

/-- Claim C9: on any packet tree whose GreaterThan, LessThan and EqualTo
operators all have at least two sub-packages, evaluation is total — the
`values[0]` and `values[1]` accesses of `Operation::execute` are in
bounds, so the modelled panic (`none`) is unreachable. -/
theorem decode_total_of_binary_comparisons (p : Package)
    (h : comparisonsBinary p = true) : (p.decode).isSome = true := by
  have hlist := decodeList_total_aux (Package.sizeList [p]) [p] le_rfl
    (by simp [comparisonsBinaryList, h])
  cases hd : p.decode with
  | none => rw [show Package.decodeList [p] = none by
      simp [Package.decodeList, hd]] at hlist; cases hlist
  | some v => rfl

/-- Witness for C9 at a GreaterThan operator with two literal
sub-packages. -/
theorem decode_total_of_binary_comparisons_witness :
    comparisonsBinary
      (.Operator 0 .GreaterThan [.Literal 0 1, .Literal 0 2]) = true ∧
    ((Package.Operator 0 .GreaterThan
      [.Literal 0 1, .Literal 0 2]).decode).isSome = true :=
  ⟨by decide, decode_total_of_binary_comparisons _ (by decide)⟩

/-! ## Invalid characters abort the hex conversion -/

/-- A character the hex table accepts maps to some value. -/
theorem hexCharValue_ok_of_isHex {c : Char} (h : isHexChar c = true) :
    ∃ v, hexCharValue c = .ok v := by
  simp only [isHexChar, Bool.or_eq_true, Bool.and_eq_true,
    decide_eq_true_eq] at h
  unfold hexCharValue
  rcases h with ⟨h₁, h₂⟩ | ⟨h₁, h₂⟩
  · exact ⟨c.toNat - 48, by rw [if_pos ⟨h₁, h₂⟩]⟩
  · by_cases hd : '0' ≤ c ∧ c ≤ '9'
    · exact ⟨c.toNat - 48, by rw [if_pos hd]⟩
    · exact ⟨c.toNat - 55, by rw [if_neg hd, if_pos ⟨h₁, h₂⟩]⟩

/-- A character the hex table rejects yields the invalid-character
error naming that character. -/
theorem hexCharValue_error_of_not_isHex {c : Char} (h : isHexChar c = false) :
    hexCharValue c =
      .error ("input has an invalid character '" ++ String.singleton c ++ "'") := by
  simp only [isHexChar, Bool.or_eq_false_iff, Bool.and_eq_false_iff,
    decide_eq_false_iff_not] at h
  obtain ⟨h₁, h₂⟩ := h
  unfold hexCharValue
  rw [if_neg (by tauto), if_neg (by tauto)]

/-- If any character of the cursor is rejected by the hex table, the
whole conversion fails with the invalid-character error for some such
character (the first one). -/
theorem bitvecFromStr_error_of_invalid :
    ∀ (cs : List Char), (cs.any fun c => !(isHexChar c)) = true →
    ∃ c, isHexChar c = false ∧
      bitvecFromStr cs =
        .error ("input has an invalid character '" ++ String.singleton c ++ "'") := by
  intro cs
  induction cs with
  | nil => intro h; simp at h
  | cons c rest ih =>
    intro h
    by_cases hc : isHexChar c = true
    · simp only [List.any_cons, hc, Bool.not_true, Bool.false_or] at h
      obtain ⟨d, hd, herr⟩ := ih h
      obtain ⟨v, hv⟩ := hexCharValue_ok_of_isHex hc
      exact ⟨d, hd, by simp [bitvecFromStr, hv, herr]⟩
    · have hc' : isHexChar c = false := by simpa using hc
      exact ⟨c, hc', by simp [bitvecFromStr, hexCharValue_error_of_not_isHex hc']⟩

/-- Claim C6: an input whose trimmed text contains any character outside
the decimal digits and uppercase A–F makes `Transmission::parse` fail
with the invalid-character error naming the offending character — the
parse returns an error, so no (partial) packet tree is produced. -/
theorem invalid_character_fails_parse (input : String)
    (h : ((rustTrim input.toList).any fun c => !(isHexChar c)) = true) :
    ∃ c, isHexChar c = false ∧
      Transmission.parse input =
        .error ("input has an invalid character '" ++ String.singleton c ++ "'") := by
  obtain ⟨c, hc, herr⟩ := bitvecFromStr_error_of_invalid _ h
  simp only [String.toList] at herr
  exact ⟨c, hc, by simp [Transmission.parse, String.toList, herr]⟩

/-- Witness for C6 at the spec fixture `D2FG28` (the `G` is invalid). -/
theorem invalid_character_fails_parse_witness :
    ((rustTrim ("D2FG28").toList).any fun c => !(isHexChar c)) = true ∧
    ∃ c, isHexChar c = false ∧
      Transmission.parse "D2FG28" =
        .error ("input has an invalid character '" ++ String.singleton c ++ "'") :=
  ⟨by decide, invalid_character_fails_parse "D2FG28" (by decide)⟩

/-! ## Underflow on the bit cursor -/

/-- Counterexample to claim C7 as stated: the one-bit read (`split_first`)
on an exhausted cursor fails with its fixed context message only — that
message carries neither the requested width (1) nor the number of bits
actually available (0); it contains no digit at all. -/
theorem take_bit_underflow_lacks_counts :
    splitFirst ([] : List Bool)
        "insufficient bits for literal packet identifier" =
      .error "insufficient bits for literal packet identifier" ∧
    ¬((toString (1 : Nat)).toList <:+:
        ("insufficient bits for literal packet identifier").toList) ∧
    ¬((toString (0 : Nat)).toList <:+:
        ("insufficient bits for literal packet identifier").toList) :=
  ⟨rfl, by decide, by decide⟩

/-- Claim C7 (amended): a multi-bit read or bound (`split_at`) on a
cursor with fewer bits than requested fails with an error that carries
both the number of bits available (`len`) and the requested width
(`mid`); such a failure propagates and aborts the whole decode, as on the
truncated transmission `D2` — but the one-bit read fails with a fixed
message that carries no counts. -/
theorem split_at_underflow_error (bits : List Bool) (mid : Nat) (msg : String)
    (h : bits.length < mid) :
    splitAt bits mid msg =
      .error (msg ++ ": len: " ++ toString bits.length ++ ", mid: " ++
        toString mid) ∧
    (toString bits.length).toList <:+:
      (msg ++ ": len: " ++ toString bits.length ++ ", mid: " ++
        toString mid).toList ∧
    (toString mid).toList <:+:
      (msg ++ ": len: " ++ toString bits.length ++ ", mid: " ++
        toString mid).toList ∧
    Transmission.parse "D2" =
      .error ("insufficient bits for literal packet content" ++ ": len: " ++
        toString (1 : Nat) ++ ", mid: " ++ toString (4 : Nat)) := by
  refine ⟨?_, ?_, ?_, ?_⟩
  · unfold splitAt
    rw [if_neg (by omega)]
  · exact ⟨(msg ++ ": len: ").toList, (", mid: " ++ toString mid).toList,
      by simp⟩
  · exact ⟨(msg ++ ": len: " ++ toString bits.length ++ ", mid: ").toList,
      [], by simp⟩
  · rfl

/-- Witness for C7 (amended) at the empty cursor and a four-bit read. -/
theorem split_at_underflow_error_witness :
    ([] : List Bool).length < 4 ∧
    (splitAt ([] : List Bool) 4 "insufficient bits for literal packet content" =
      .error ("insufficient bits for literal packet content" ++ ": len: " ++
        toString ([] : List Bool).length ++ ", mid: " ++ toString (4 : Nat)) ∧
    (toString ([] : List Bool).length).toList <:+:
      ("insufficient bits for literal packet content" ++ ": len: " ++
        toString ([] : List Bool).length ++ ", mid: " ++
        toString (4 : Nat)).toList ∧
    (toString (4 : Nat)).toList <:+:
      ("insufficient bits for literal packet content" ++ ": len: " ++
        toString ([] : List Bool).length ++ ", mid: " ++
        toString (4 : Nat)).toList ∧
    Transmission.parse "D2" =
      .error ("insufficient bits for literal packet content" ++ ": len: " ++
        toString (1 : Nat) ++ ", mid: " ++ toString (4 : Nat))) :=
  ⟨by decide, split_at_underflow_error [] 4
    "insufficient bits for literal packet content" (by decide)⟩

/-! ## Child counts are not constrained by the decoder -/

/-- Counterexample to claim C5 as stated: the 20-bit transmission `16000`
(version 0, type 5 = GreaterThan, count framing with an 11-bit count of
0) decodes successfully to an operator with an empty child list — so a
decoded operator can have fewer than one child, and a decoded comparison
operator can have other than exactly two. -/
theorem operator_zero_children_decodes :
    Transmission.parse "16000" =
      .ok { package := .Operator 0 .GreaterThan [] } := rfl

/-- Claim C5 (amended): the decoder enforces no arity constraint on
operators; under the count framing a successful decode yields exactly the
declared number of children — which may be zero, and for a comparison
operator need not be two. -/
theorem count_framing_children_length :
    ∀ (fuel count : Nat) (bits : List Bool) (ps : List Package)
      (rest : List Bool),
    parseCountP fuel count bits = .ok (ps, rest) → ps.length = count := by
  intro fuel
  induction fuel with
  | zero => intro count bits ps rest h; simp [parseCountP] at h
  | succ f ih =>
    intro count bits ps rest h
    cases count with
    | zero =>
      simp only [parseCountP] at h
      obtain ⟨hps, _⟩ := Prod.mk.injEq .. ▸ Except.ok.inj h
      rw [← hps]
      rfl
    | succ n =>
      obtain ⟨package, bits₁, packages, hp, hc, rfl⟩ :=
        parseCountP_succ_ok.1 h
      simp [ih n bits₁ packages rest hc]

/-- Witness for C5 (amended): a declared count of two yields exactly two
children. -/
theorem count_framing_children_length_witness :
    parseCountP 5 2
      [false, false, false, true, false, false, false, false, false, false,
       false, false, false, false, true, false, false, false, false, false,
       false, false] =
      .ok ([.Literal 0 0, .Literal 0 0], []) ∧
    ([Package.Literal 0 0, Package.Literal 0 0] : List Package).length = 2 :=
  ⟨by rfl, count_framing_children_length 5 2
    [false, false, false, true, false, false, false, false, false, false,
     false, false, false, false, true, false, false, false, false, false,
     false, false] [.Literal 0 0, .Literal 0 0] [] (by rfl)⟩

/-! ## The bit-length framing consumes exactly the declared bits -/

/-- A cursor parsed until empty is consumed exactly: the per-child
consumption counts exist and sum to the whole cursor length. -/
theorem consumedCounts_of_untilEmpty :
    ∀ (fuel : Nat) (slice : List Bool) (ps : List Package),
    parseUntilEmptyP fuel slice = .ok ps →
    ∃ counts : List Nat,
      consumedCounts fuel slice = some counts ∧
      counts.length = ps.length ∧
      counts.sum = slice.length := by
  intro fuel
  induction fuel with
  | zero =>
    intro slice ps h
    cases slice with
    | nil =>
      simp only [parseUntilEmptyP] at h
      obtain rfl := Except.ok.inj h
      exact ⟨[], rfl, rfl, rfl⟩
    | cons b bs => simp [parseUntilEmptyP] at h
  | succ f ih =>
    intro slice ps h
    cases slice with
    | nil =>
      simp only [parseUntilEmptyP] at h
      obtain rfl := Except.ok.inj h
      exact ⟨[], rfl, rfl, rfl⟩
    | cons b bs =>
      obtain ⟨package, rest, packages, hp, hu, rfl⟩ :=
        parseUntilEmptyP_succ_ok.1 h
      obtain ⟨counts, hcc, hlen, hsum⟩ := ih rest packages hu
      have hr := (parse_length f).1 hp
      refine ⟨((b :: bs).length - rest.length) :: counts, ?_,
        by simp [hlen], ?_⟩
      · simp only [consumedCounts, hp, hcc]
      · simp only [List.sum_cons, hsum]
        simp only [List.length_cons] at hr ⊢
        omega

/-- Claim C1: an operator using the bit-length framing
(`length_type_id == 0`) reads a 15-bit total length, carves off exactly
that many bits, and parses children from the carved-off cursor until it
has zero bits remaining; hence on success the per-child bit consumptions
exist and sum exactly to the declared 15-bit length field. -/
theorem bit_length_framing_consumed {fuel : Nat} {bits rest : List Bool}
    {ps : List Package}
    (h : parseSubPackagesP (fuel + 1) (false :: bits) = .ok (ps, rest)) :
    15 ≤ bits.length ∧
    rest = (bits.drop 15).drop (loadBe (bits.take 15)) ∧
    ∃ counts : List Nat,
      consumedCounts fuel ((bits.drop 15).take (loadBe (bits.take 15))) =
        some counts ∧
      counts.length = ps.length ∧
      counts.sum = loadBe (bits.take 15) := by
  obtain ⟨lengthTypeId, bits₁, hl, hcase⟩ := parseSubPackagesP_succ_ok.1 h
  have hl' : splitFirst (false :: bits)
      "insufficient bits for packet length identifier" = .ok (false, bits) := rfl
  rw [hl'] at hl
  obtain ⟨hltid, hbits₁⟩ := Prod.mk.injEq .. ▸ Except.ok.inj hl
  rcases hcase with ⟨hb, _, _, _, _⟩ |
    ⟨_, packetBitCount, bits₂, packetBits, hc, hp, hu⟩
  · rw [← hltid] at hb; cases hb
  · rw [← hbits₁] at hc
    obtain ⟨h15, hpbc, hbits₂⟩ := splitAtAs_ok hc
    obtain ⟨hple, hpbits, hrest⟩ := splitAt_ok hp
    obtain ⟨counts, hcc, hlen, hsum⟩ :=
      consumedCounts_of_untilEmpty fuel packetBits ps hu
    have hslice : packetBits.length = packetBitCount := by
      rw [hpbits]
      simp [List.length_take]
      omega
    refine ⟨h15, ?_, counts, ?_, hlen, ?_⟩
    · rw [hrest, hbits₂, hpbc]
    · rw [← hpbc, ← hbits₂, ← hpbits]
      exact hcc
    · rw [hsum, hslice, hpbc]

/-- Witness for C1 at the operator of hex `38006F45291200`: the declared
length 27 is consumed as 11 bits by the first child and 16 by the
second. -/
theorem bit_length_framing_consumed_witness :
    15 ≤ ([false, false, false, false, false, false, false, false, false,
      false, true, true, false, true, true, true, true, false, true, false,
      false, false, true, false, true, false, false, true, false, true,
      false, false, true, false, false, false, true, false, false, true,
      false, false, false, false, false, false, false, false, false] :
        List Bool).length ∧
    ([false, false, false, false, false, false, false] : List Bool) =
      (([false, false, false, false, false, false, false, false, false,
        false, true, true, false, true, true, true, true, false, true,
        false, false, false, true, false, true, false, false, true, false,
        true, false, false, true, false, false, false, true, false, false,
        true, false, false, false, false, false, false, false, false,
        false] : List Bool).drop 15).drop
        (loadBe (([false, false, false, false, false, false, false, false,
          false, false, true, true, false, true, true, true, true, false,
          true, false, false, false, true, false, true, false, false, true,
          false, true, false, false, true, false, false, false, true,
          false, false, true, false, false, false, false, false, false,
          false, false, false] : List Bool).take 15)) ∧
    ∃ counts : List Nat,
      consumedCounts 40
        ((([false, false, false, false, false, false, false, false, false,
          false, true, true, false, true, true, true, true, false, true,
          false, false, false, true, false, true, false, false, true,
          false, true, false, false, true, false, false, false, true,
          false, false, true, false, false, false, false, false, false,
          false, false, false] : List Bool).drop 15).take
          (loadBe (([false, false, false, false, false, false, false,
            false, false, false, true, true, false, true, true, true, true,
            false, true, false, false, false, true, false, true, false,
            false, true, false, true, false, false, true, false, false,
            false, true, false, false, true, false, false, false, false,
            false, false, false, false, false] : List Bool).take 15))) =
        some counts ∧
      counts.length = ([Package.Literal 6 10, Package.Literal 2 20] :
        List Package).length ∧
      counts.sum = loadBe (([false, false, false, false, false, false,
        false, false, false, false, true, true, false, true, true, true,
        true, false, true, false, false, false, true, false, true, false,
        false, true, false, true, false, false, true, false, false, false,
        true, false, false, true, false, false, false, false, false,
        false, false, false, false] : List Bool).take 15) :=
  bit_length_framing_consumed (by rfl)

/-! ## Literal values: groups, concatenation and the u64 accumulator -/

/-- `loadBe` inverts `toBits4` on values below 16. -/
theorem loadBe_toBits4 : ∀ g : Nat, g < 16 → loadBe (toBits4 g) = g := by
  decide

/-- Reading four bits off a `toBits4` prefix yields the encoded group. -/
theorem splitAtAs_toBits4 (g : Nat) (hg : g < 16) (rest : List Bool)
    (msg : String) :
    splitAtAs (toBits4 g ++ rest) 4 msg = .ok (g, rest) := by
  have h₁ : (toBits4 g ++ rest).take 4 = toBits4 g := by
    rw [List.take_append_of_le_length (by simp [toBits4])]
    simp [toBits4]
  have h₂ : (toBits4 g ++ rest).drop 4 = rest := by
    rw [List.drop_append_of_le_length (by simp [toBits4])]
    simp [toBits4]
  unfold splitAtAs splitAt
  rw [if_pos (by simp [toBits4]), h₁, h₂]
  simp [loadBe_toBits4 g hg]

/-- The encoding of a group list is five bits per group. -/
theorem encodeGroups_length :
    ∀ gs : List Nat, (encodeGroups gs).length = 5 * gs.length := by
  intro gs
  induction gs with
  | nil => rfl
  | cons g rest ih =>
    cases rest with
    | nil => simp [encodeGroups, toBits4]
    | cons g' rest' =>
      have harm : encodeGroups (g :: g' :: rest') =
          true :: (toBits4 g ++ encodeGroups (g' :: rest')) := rfl
      rw [harm]
      simp only [List.length_cons, List.length_append, ih, toBits4]
      simp only [List.length_cons, List.length_nil]
      omega

/-- Folding the concatenation step from congruent accumulators yields
congruent results modulo `2 ^ 64`. -/
theorem specFold_mod_congr :
    ∀ (groups : List Nat) (x y : Nat), x % 2 ^ 64 = y % 2 ^ 64 →
    (groups.foldl (fun value group => value * 16 + group) x) % 2 ^ 64 =
    (groups.foldl (fun value group => value * 16 + group) y) % 2 ^ 64 := by
  intro groups
  induction groups with
  | nil => intro x y h; simpa using h
  | cons g gs ih =>
    intro x y h
    simp only [List.foldl_cons]
    exact ih _ _ (Nat.ModEq.add_right g (Nat.ModEq.mul_right 16 h))

/-- One step of wrap-around arithmetic: reducing the shifted accumulator
before adding a group below 16 changes nothing modulo `2 ^ 64`. -/
theorem shift_add_mod (value g : Nat) (hg : g < 16) :
    ((value * 16) % 2 ^ 64 + g) % 2 ^ 64 = (value * 16 + g) % 2 ^ 64 := by
  conv_rhs => rw [Nat.add_mod]
  rw [Nat.mod_eq_of_lt (show g < 2 ^ 64 by omega)]

/-- The literal-value loop on an encoded group list reads every group and
accumulates the concatenation, wrapping modulo `2 ^ 64` at each step. -/
theorem parseValueP_encode :
    ∀ (groups : List Nat) (fuel value : Nat) (rest : List Bool),
    (∀ g ∈ groups, g < 16) → groups.length ≤ fuel + 1 → groups ≠ [] →
    parseValueP (fuel + 1) (encodeGroups groups ++ rest) value =
      .ok ((groups.foldl (fun v g => v * 16 + g) value) % 2 ^ 64, rest) := by
  intro groups
  induction groups with
  | nil => intro fuel value rest _ _ hne; exact absurd rfl hne
  | cons g gs ih =>
    intro fuel value rest hlt hlen _
    have hg : g < 16 := hlt g (by simp)
    cases gs with
    | nil =>
      show parseValueP (fuel + 1) ((false :: toBits4 g) ++ rest) value = _
      rw [List.cons_append]
      refine parseValueP_succ_ok.2 ⟨false, toBits4 g ++ rest, g, rest, rfl,
        splitAtAs_toBits4 g hg rest _, Or.inr ⟨rfl, ?_, rfl⟩⟩
      simp only [List.foldl_cons, List.foldl_nil]
      exact (shift_add_mod value g hg).symm
    | cons g' gs' =>
      obtain ⟨f, rfl⟩ : ∃ f, fuel = f + 1 :=
        ⟨fuel - 1, by simp at hlen; omega⟩
      show parseValueP (f + 1 + 1)
        ((true :: (toBits4 g ++ encodeGroups (g' :: gs'))) ++ rest) value = _
      rw [List.cons_append, List.append_assoc]
      refine parseValueP_succ_ok.2 ⟨true,
        toBits4 g ++ (encodeGroups (g' :: gs') ++ rest), g,
        encodeGroups (g' :: gs') ++ rest, rfl,
        splitAtAs_toBits4 g hg _ _, Or.inl ⟨rfl, ?_⟩⟩
      rw [ih f (((value * 16) % 2 ^ 64 + g) % 2 ^ 64) rest
        (fun x hx => hlt x (by simp [hx])) (by simp at hlen ⊢; omega)
        (by simp)]
      refine congrArg (fun n => Except.ok (n, rest)) ?_
      conv_rhs => rw [List.foldl_cons]
      exact specFold_mod_congr (g' :: gs')
        (((value * 16) % 2 ^ 64 + g) % 2 ^ 64) (value * 16 + g)
        (by rw [Nat.mod_mod_of_dvd _ dvd_rfl, shift_add_mod value g hg])

/-- Claim C2 (amended): the literal decoder reads one continuation bit
and one 4-bit group per iteration, reads at least one group, stops after
the group whose continuation bit is 0, and produces the base-16
concatenation of the groups (most significant first) reduced modulo
`2 ^ 64` — the `u64` accumulator wraps when a literal has more than
sixteen groups. -/
theorem literal_value_eq_concat_mod (groups : List Nat) (rest : List Bool)
    (hne : groups ≠ []) (hlt : ∀ g ∈ groups, g < 16) :
    parseValue (encodeGroups groups ++ rest) =
      .ok (specLiteralValue groups % 2 ^ 64, rest) := by
  unfold parseValue specLiteralValue
  exact parseValueP_encode groups ((encodeGroups groups ++ rest).length) 0
    rest hlt (by simp [encodeGroups_length]; omega) hne

/-- Witness for C2 (amended) at the groups of the `D2FE28` literal. -/
theorem literal_value_eq_concat_mod_witness :
    ([7, 14, 5] : List Nat) ≠ [] ∧
    parseValue (encodeGroups [7, 14, 5] ++ []) =
      .ok (specLiteralValue [7, 14, 5] % 2 ^ 64, []) :=
  ⟨by decide, literal_value_eq_concat_mod [7, 14, 5] [] (by decide)
    (by decide)⟩

/-- Counterexample to claim C2 as stated: a literal with seventeen groups
(1 followed by sixteen 0 groups) decodes — the parse succeeds — but its
decoded value is 0, while the base-16 concatenation of its groups is
`2 ^ 64`, not 0: the `u64` accumulator has wrapped, so the decoded value
does not equal the concatenation. -/
theorem literal_value_wraps_past_sixteen_groups :
    Package.parse ([false, false, false, true, false, false] ++
        encodeGroups (1 :: List.replicate 16 0)) =
      .ok (.Literal 0 0, []) ∧
    specLiteralValue (1 :: List.replicate 16 0) = 2 ^ 64 :=
  ⟨by rfl, by decide⟩

end Day16
